import Mathlib

/-!
Verification of the ordered-selection-list behaviour of the pdfshield pages
(`MergePDF.tsx`, `EditPDF.tsx`, `SplitPDF.tsx`, the images-to-PDF page), plus
the shared `formatFileSize` helper.  Each JavaScript handler that the claims
concern is embedded as an executable Lean function over explicit state; the
theorems at the end of the file settle the claims.
-/

namespace PDFShield

/-! ## Generic list helpers mirroring the JavaScript array operations -/

/-- dnd-kit's `arrayMove(array, from, to)` for natural-number indices: remove
the element at `from` and re-insert it at `to`.  The `none` branch (index past
the end, where JavaScript would splice in `undefined`) never arises from
`findIndex` of a present id. -/
def arrayMove {α : Type} (l : List α) (i j : Nat) : List α :=
  match l[i]? with
  | some x => (l.eraseIdx i).insertIdx j x
  | none => l

/-- JavaScript `Array.prototype.findIndex`: the index of the first match, `-1`
when no element matches. -/
def jsFindIndex {α : Type} (p : α → Bool) (l : List α) : Int :=
  match l.findIdx? p with
  | some i => (i : Int)
  | none => -1

/-- dnd-kit's `arrayMove` on raw JavaScript numbers, including the negative
index handling of `splice`: a negative `from` counts back from the end of the
array, and for a negative `to` the insertion index `newArray.length + to` is
computed before the removal splice runs (argument evaluation order).  The
`none` branch (removal position past the end, where JavaScript would insert
`undefined`) is unreachable from the drag handlers. -/
def jsArrayMove {α : Type} (l : List α) (f t : Int) : List α :=
  let len : Int := l.length
  let remPos : Nat := (if f < 0 then len + f else f).toNat
  let insPos : Nat := min (if t < 0 then len + t else t).toNat (l.length - 1)
  match l[remPos]? with
  | some x => (l.eraseIdx remPos).insertIdx insPos x
  | none => l

/-- The shared body of `moveFile` / `moveImage`:
`const [removed] = arr.splice(fromIndex, 1); arr.splice(toIndex, 0, removed)`.
Here a negative `toIndex` counts back from the length of the array after the
removal (the two splices run sequentially), and an insertion index past the
end appends.  The `none` branch (removal position past the end) is unreachable
from the pages' calls. -/
def jsSpliceMove {α : Type} (l : List α) (f t : Int) : List α :=
  let remPos : Nat := (if f < 0 then (l.length : Int) + f else f).toNat
  match l[remPos]? with
  | some x =>
    let rest := l.eraseIdx remPos
    let insPos : Nat := min (if t < 0 then (rest.length : Int) + t else t).toNat rest.length
    rest.insertIdx insPos x
  | none => l

/-- The JavaScript destructuring swap
`[a[i], a[j]] = [a[j], a[i]]` used by `movePageUp` / `movePageDown`. -/
def listSwap {α : Type} (l : List α) (i j : Nat) : List α :=
  match l[i]?, l[j]? with
  | some a, some b => (l.set i b).set j a
  | _, _ => l

/-! ## Pointwise lemmas about `eraseIdx`, `insertIdx`, `set` -/

theorem getElem?_eraseIdx_of_lt {α : Type} (l : List α) (i k : Nat) (h : k < i) :
    (l.eraseIdx i)[k]? = l[k]? := by
  induction l generalizing i k with
  | nil => simp [List.eraseIdx]
  | cons a as ih =>
    cases i with
    | zero => omega
    | succ i =>
      cases k with
      | zero => simp [List.eraseIdx]
      | succ k =>
        simp only [List.eraseIdx, List.getElem?_cons_succ]
        exact ih i k (by omega)

theorem getElem?_eraseIdx_of_ge {α : Type} (l : List α) (i k : Nat) (h : i ≤ k) :
    (l.eraseIdx i)[k]? = l[k + 1]? := by
  induction l generalizing i k with
  | nil => simp [List.eraseIdx]
  | cons a as ih =>
    cases i with
    | zero => simp [List.eraseIdx]
    | succ i =>
      cases k with
      | zero => omega
      | succ k =>
        simp only [List.eraseIdx, List.getElem?_cons_succ]
        exact ih i k (by omega)

theorem getElem?_insertIdx_of_lt {α : Type} (l : List α) (x : α) (n k : Nat) (h : k < n) :
    (l.insertIdx n x)[k]? = l[k]? := by
  induction l generalizing n k with
  | nil =>
    cases n with
    | zero => omega
    | succ n => simp [List.insertIdx]
  | cons a as ih =>
    cases n with
    | zero => omega
    | succ n =>
      cases k with
      | zero => simp [List.insertIdx_succ_cons]
      | succ k =>
        rw [List.insertIdx_succ_cons, List.getElem?_cons_succ, List.getElem?_cons_succ]
        exact ih n k (by omega)

theorem getElem?_insertIdx_self {α : Type} (l : List α) (x : α) (n : Nat)
    (h : n ≤ l.length) : (l.insertIdx n x)[n]? = some x := by
  induction l generalizing n with
  | nil =>
    cases n with
    | zero => simp [List.insertIdx]
    | succ n => simp at h
  | cons a as ih =>
    cases n with
    | zero => simp [List.insertIdx]
    | succ n =>
      rw [List.insertIdx_succ_cons, List.getElem?_cons_succ]
      exact ih n (by simpa using h)

theorem getElem?_insertIdx_of_gt {α : Type} (l : List α) (x : α) (n k : Nat)
    (hn : n ≤ l.length) (h : n < k) : (l.insertIdx n x)[k]? = l[k - 1]? := by
  induction l generalizing n k with
  | nil =>
    cases n with
    | zero =>
      cases k with
      | zero => omega
      | succ k => simp [List.insertIdx]
    | succ n => simp at hn
  | cons a as ih =>
    cases n with
    | zero =>
      cases k with
      | zero => omega
      | succ k => simp [List.insertIdx]
    | succ n =>
      cases k with
      | zero => omega
      | succ k =>
        rw [List.insertIdx_succ_cons, List.getElem?_cons_succ]
        rw [ih n k (by simpa using hn) (by omega)]
        cases k with
        | zero => omega
        | succ k => simp

theorem length_arrayMove {α : Type} (l : List α) (i j : Nat)
    (hi : i < l.length) (hj : j < l.length) : (arrayMove l i j).length = l.length := by
  have hx : ∃ x, l[i]? = some x := by
    simp [List.getElem?_eq_getElem hi]
  obtain ⟨x, hx⟩ := hx
  simp only [arrayMove, hx]
  rw [List.length_insertIdx _ _ (by simp [List.length_eraseIdx, hi]; omega)]
  simp [List.length_eraseIdx, hi]
  omega

/-! ## EditPDF.tsx : pages with an index-keyed selection -/

/-- One entry of EditPDF's `pages` state (the `PageInfo` interface:
`id`, `pageIndex`, `rotation`). -/
structure PageInfo where
  id : String
  pageIndex : Nat
  rotation : Int
  deriving DecidableEq, Repr

/-- The two pieces of EditPDF state the claims concern: `loadedPDF.pages` and
`selectedPages : Set<number>` (a set of positions). -/
structure EditState where
  pages : List PageInfo
  selected : Finset Nat
  deriving DecidableEq

/-- The handwritten index remapping `handleDragEnd` applies to each selected
index after `arrayMove(pages, oldIndex, newIndex)`:
the moved index goes to `newIndex`; moving down shifts the indices strictly
between them down by one; moving up shifts them up by one. -/
def dragRemap (oldIndex newIndex i : Nat) : Nat :=
  if i = oldIndex then newIndex
  else if oldIndex < newIndex then
    if oldIndex < i ∧ i ≤ newIndex then i - 1 else i
  else
    if newIndex ≤ i ∧ i < oldIndex then i + 1 else i

/-- EditPDF's `handleDragEnd` once `findIndex` has resolved the dragged and
hovered ids to the positions `o` and `n`: `pages` becomes
`arrayMove(pages, o, n)` and every selected index is remapped. -/
def editDragEnd (o n : Nat) (st : EditState) : EditState :=
  { pages := arrayMove st.pages o n
    selected := st.selected.image (dragRemap o n) }

/-- EditPDF's `togglePage`. -/
def togglePage (i : Nat) (st : EditState) : EditState :=
  { st with
    selected := if i ∈ st.selected then st.selected.erase i else insert i st.selected }

/-- EditPDF's `selectAll`: every current position. -/
def selectAll (st : EditState) : EditState :=
  { st with selected := Finset.range st.pages.length }

/-- EditPDF's `deselectAll`. -/
def deselectAll (st : EditState) : EditState :=
  { st with selected := ∅ }

/-- EditPDF's `deleteSelectedPages`: refuses an empty selection and (with an
`alert`) a selection covering every page; otherwise drops the selected
positions and clears the selection. -/
def deleteSelectedPages (st : EditState) : EditState :=
  if st.selected.card = 0 then st
  else if st.pages.length ≤ st.selected.card then st
  else
    { pages := (st.pages.enum.filter fun p => p.1 ∉ st.selected).map Prod.snd
      selected := ∅ }

/-- The index remapping `movePageUp index` applies to each selected index. -/
def upRemap (index i : Nat) : Nat :=
  if i = index then i - 1 else if i = index - 1 then i + 1 else i

/-- EditPDF's `movePageUp`: swap positions `index - 1` and `index`, remap the
selection; a no-op at the left boundary. -/
def movePageUp (index : Nat) (st : EditState) : EditState :=
  if index = 0 then st
  else
    { pages := listSwap st.pages (index - 1) index
      selected := st.selected.image (upRemap index) }

/-- The index remapping `movePageDown index` applies to each selected index. -/
def downRemap (index i : Nat) : Nat :=
  if i = index then i + 1 else if i = index + 1 then i - 1 else i

/-- EditPDF's `movePageDown`: swap positions `index` and `index + 1`, remap
the selection; a no-op at the right boundary. -/
def movePageDown (index : Nat) (st : EditState) : EditState :=
  if st.pages.length - 1 ≤ index then st
  else
    { pages := listSwap st.pages index (index + 1)
      selected := st.selected.image (downRemap index) }

/-- Loading a PDF (`handleFilesAdded`): fresh pages, empty selection. -/
def loadPages (pages : List PageInfo) : EditState :=
  { pages := pages, selected := ∅ }

/-! ## The drag-remap tracks each item through the permutation -/

/-- For indices `o`, `n` of existing pages, looking up the remapped position of
any index `i` in the moved list gives back exactly the element that sat at `i`
before the drag. -/
theorem arrayMove_getElem?_dragRemap {α : Type} (l : List α) (o n i : Nat)
    (ho : o < l.length) (hn : n < l.length) :
    (arrayMove l o n)[dragRemap o n i]? = l[i]? := by
  have hx : ∃ x, l[o]? = some x := by
    simp [List.getElem?_eq_getElem ho]
  obtain ⟨x, hx⟩ := hx
  have hlen : (l.eraseIdx o).length = l.length - 1 := by
    simp [List.length_eraseIdx, ho]
  simp only [arrayMove, hx, dragRemap]
  by_cases hio : i = o
  · subst hio
    rw [if_pos rfl, getElem?_insertIdx_self _ _ _ (by omega), hx]
  · simp only [if_neg hio]
    by_cases hon : o < n
    · simp only [if_pos hon]
      by_cases hmid : o < i ∧ i ≤ n
      · simp only [if_pos hmid]
        rw [getElem?_insertIdx_of_lt _ _ _ _ (by omega),
          getElem?_eraseIdx_of_ge _ _ _ (by omega)]
        congr 1
        omega
      · simp only [if_neg hmid]
        rcases Nat.lt_or_ge i o with hlt | hge
        · rw [getElem?_insertIdx_of_lt _ _ _ _ (by omega),
            getElem?_eraseIdx_of_lt _ _ _ (by omega)]
        · have hgt : n < i := by omega
          rw [getElem?_insertIdx_of_gt _ _ _ _ (by omega) hgt,
            getElem?_eraseIdx_of_ge _ _ _ (by omega)]
          congr 1
          omega
    · simp only [if_neg hon]
      by_cases hmid : n ≤ i ∧ i < o
      · simp only [if_pos hmid]
        rw [getElem?_insertIdx_of_gt _ _ _ _ (by omega) (by omega)]
        have : i + 1 - 1 = i := by omega
        rw [this, getElem?_eraseIdx_of_lt _ _ _ (by omega)]
      · simp only [if_neg hmid]
        rcases Nat.lt_or_ge i n with hlt | hge
        · rw [getElem?_insertIdx_of_lt _ _ _ _ (by omega),
            getElem?_eraseIdx_of_lt _ _ _ (by omega)]
        · have hgt : o < i := by omega
          rw [getElem?_insertIdx_of_gt _ _ _ _ (by omega) (by omega),
            getElem?_eraseIdx_of_ge _ _ _ (by omega)]
          congr 1
          omega

/-- The drag remapping of an in-range index is in range. -/
theorem dragRemap_lt (o n i len : Nat) (ho : o < len) (hn : n < len) (hi : i < len) :
    dragRemap o n i < len := by
  unfold dragRemap
  split
  · omega
  · split
    · split <;> omega
    · split <;> omega

/-! ## MergePDF.tsx and the images-to-PDF page -/

/-- One entry of MergePDF's `files` state (the `PDFFile` interface; the
`File`/`ArrayBuffer` payloads are opaque to the claims). -/
structure PDFFile where
  id : String
  name : String
  pages : Nat
  size : String
  deriving DecidableEq, Repr

/-- MergePDF's `removeFile`: `prev.filter((f) => f.id !== id)`. -/
def removeFile (id : String) (files : List PDFFile) : List PDFFile :=
  files.filter fun f => f.id != id

/-- MergePDF's `handleDragEnd`: when the dragged id differs from the hovered
id, `arrayMove` the list between the two `findIndex` results (`-1` when an id
is absent). -/
def mergeDragEnd (activeId overId : String) (files : List PDFFile) : List PDFFile :=
  if activeId ≠ overId then
    jsArrayMove files (jsFindIndex (fun f => f.id == activeId) files)
      (jsFindIndex (fun f => f.id == overId) files)
  else files

/-- MergePDF's `moveFile`: explicit bounds check on the target index, then the
two splices. -/
def moveFile (files : List PDFFile) (fromIndex toIndex : Int) : List PDFFile :=
  if toIndex < 0 ∨ (files.length : Int) ≤ toIndex then files
  else jsSpliceMove files fromIndex toIndex

/-- One entry of the images page's `images` state (the `ImageFile` interface;
`File`/preview payloads opaque). -/
structure ImageFile where
  id : String
  name : String
  deriving DecidableEq, Repr

/-- The images page's `moveImage`: the same two splices as `moveFile`, with no
bounds check on the target index. -/
def moveImage (images : List ImageFile) (fromIndex toIndex : Int) : List ImageFile :=
  jsSpliceMove images fromIndex toIndex

/-! ## The shared `formatFileSize` helper -/

/-- JavaScript `x.toFixed(1)` for `x = num / den` with `den` a power of two,
so that `x` is an exact double for every file size in range: round `10 * x`
half away from zero and print the result as `q.r`. -/
def toFixed1 (num den : Nat) : String :=
  let n := (20 * num + den) / (2 * den)
  toString (n / 10) ++ "." ++ toString (n % 10)

/-- The `formatFileSize` helper, duplicated verbatim in all eight pages of the
repository (`MergePDF`, `SplitPDF`, `EditPDF`, `PDFToImages` and the four
unnamed pages). -/
def formatFileSize (bytes : Nat) : String :=
  if bytes < 1024 then toString bytes ++ " B"
  else if bytes < 1024 * 1024 then toFixed1 bytes 1024 ++ " KB"
  else toFixed1 bytes (1024 * 1024) ++ " MB"

/-! ## SplitPDF.tsx : the selected-page order used by `handleSplit` -/

/-- SplitPDF's `Array.from(selectedPages).sort((a, b) => a - b)`: the selected
page numbers in the insertion order of the `Set`, sorted ascending. -/
def sortedPages (sel : List Nat) : List Nat :=
  sel.mergeSort fun a b => decide (a ≤ b)

/-- SplitPDF's `pageIndices`: the sorted selected page numbers converted to
0-based indices, the exact order handed to `copyPages`. -/
def splitPageIndices (sel : List Nat) : List Nat :=
  (sortedPages sel).map (· - 1)

/-! ## The EditPDF operation machine (for the selection-in-bounds invariant) -/

/-- The EditPDF operations the claims quantify over; arguments are the values
the rendering layer passes (positions of rendered pages, `findIndex` results
of present ids). -/
inductive EOp where
  | load (pages : List PageInfo)
  | toggle (i : Nat)
  | selAll
  | deselAll
  | dragEnd (o n : Nat)
  | moveUp (i : Nat)
  | moveDown (i : Nat)
  | deleteSel
  deriving Repr

/-- One step of the EditPDF component. -/
def estep (op : EOp) (st : EditState) : EditState :=
  match op with
  | .load ps => loadPages ps
  | .toggle i => togglePage i st
  | .selAll => selectAll st
  | .deselAll => deselectAll st
  | .dragEnd o n => editDragEnd o n st
  | .moveUp i => movePageUp i st
  | .moveDown i => movePageDown i st
  | .deleteSel => deleteSelectedPages st

/-- The argument ranges the UI guarantees: toggles and one-step moves are
invoked for a rendered page's position, and drag positions come from
`findIndex` of ids present in `pages`. -/
def EOp.valid (op : EOp) (st : EditState) : Prop :=
  match op with
  | .load _ => True
  | .toggle i => i < st.pages.length
  | .selAll => True
  | .deselAll => True
  | .dragEnd o n => o < st.pages.length ∧ n < st.pages.length
  | .moveUp i => i < st.pages.length
  | .moveDown i => i < st.pages.length
  | .deleteSel => True

/-- States reachable from the initial (nothing loaded) state by any sequence
of validly-invoked operations. -/
inductive Reachable : EditState → Prop where
  | init : Reachable ⟨[], ∅⟩
  | step (op : EOp) (st : EditState) : Reachable st → op.valid st → Reachable (estep op st)

/-- Invariant I1 in the index-keyed representation: every selected index
references a present page. -/
def SelInBounds (st : EditState) : Prop :=
  ∀ i ∈ st.selected, i < st.pages.length

/-! ## Lemmas about `listSwap` and the one-step remaps -/

theorem length_listSwap {α : Type} (l : List α) (i j : Nat) :
    (listSwap l i j).length = l.length := by
  unfold listSwap
  cases hi : l[i]? with
  | none => rfl
  | some a =>
    cases hj : l[j]? with
    | none => rfl
    | some b => simp [List.length_set]

theorem getElem?_listSwap {α : Type} (l : List α) (i j k : Nat)
    (hi : i < l.length) (hj : j < l.length) :
    (listSwap l i j)[k]? = if j = k then l[i]? else if i = k then l[j]? else l[k]? := by
  have ha : l[i]? = some l[i] := List.getElem?_eq_getElem hi
  have hb : l[j]? = some l[j] := List.getElem?_eq_getElem hj
  simp only [listSwap, ha, hb]
  rw [List.getElem?_set, List.getElem?_set]
  simp only [List.length_set]
  by_cases hjk : j = k
  · subst hjk
    simp [hj, ha]
  · simp only [if_neg hjk]
    by_cases hik : i = k
    · subst hik
      simp [hi, hb]
    · simp [if_neg hik]

theorem upRemap_lt (k j len : Nat) (hk : k < len) (hj : j < len) :
    upRemap k j < len := by
  unfold upRemap
  split
  · omega
  · split <;> omega

theorem downRemap_lt (k j len : Nat) (hk : k < len - 1) (hj : j < len) :
    downRemap k j < len := by
  unfold downRemap
  split
  · omega
  · split <;> omega

/-! ## Claim C1 -/

/-- A four-page document and the selection of its second and fourth pages,
the concrete scenario of P2. -/
def samplePages : List PageInfo :=
  [⟨"A", 0, 0⟩, ⟨"B", 1, 0⟩, ⟨"C", 2, 0⟩, ⟨"D", 3, 0⟩]

/-- The concrete P2 state: pages A B C D, B and D selected. -/
def sampleState : EditState := ⟨samplePages, {1, 3}⟩

/-- C1: the handwritten shift-if-between remapping `handleDragEnd` applies to
the selected indices is equivalent to following each selected item's identity
through the `arrayMove` permutation — the set of pages designated by the
selection (looked up at their post-drag positions) equals the set designated
before the drag. -/
theorem editDragEnd_selection_follows_identity (st : EditState) (o n : Nat)
    (ho : o < st.pages.length) (hn : n < st.pages.length) :
    (editDragEnd o n st).pages = arrayMove st.pages o n ∧
    ((editDragEnd o n st).selected.image fun j => (editDragEnd o n st).pages[j]?)
      = st.selected.image fun i => st.pages[i]? := by
  refine ⟨rfl, ?_⟩
  show ((st.selected.image (dragRemap o n)).image fun j => (arrayMove st.pages o n)[j]?) = _
  rw [Finset.image_image]
  exact Finset.image_congr fun i _ => arrayMove_getElem?_dragRemap st.pages o n i ho hn

/-- Witness for C1 at the claim's own input: pages [A,B,C,D], selection
`{1, 3}` (B and D), dragging A to the end.  The drag produces the order
[B,C,D,A], the remapped selection is `{0, 2}`, and the theorem applied at this
input confirms the selected identities are preserved. -/
theorem editDragEnd_selection_follows_identity_witness :
    arrayMove samplePages 0 3 = [⟨"B", 1, 0⟩, ⟨"C", 2, 0⟩, ⟨"D", 3, 0⟩, ⟨"A", 0, 0⟩] ∧
    ({1, 3} : Finset Nat).image (dragRemap 0 3) = {0, 2} ∧
    (((editDragEnd 0 3 sampleState).selected.image
        fun j => (editDragEnd 0 3 sampleState).pages[j]?)
      = sampleState.selected.image fun i => sampleState.pages[i]?) :=
  ⟨by decide, by decide,
    (editDragEnd_selection_follows_identity sampleState 0 3 (by decide) (by decide)).2⟩

/-! ## Claim C2 -/

/-- C2: after any sequence of validly-invoked EditPDF operations (load,
toggle, select-all, deselect-all, drag-reorder, move-by-one, delete-selected),
every index in `selectedPages` is in `[0, pages.length)` — no operation leaves
a dangling selection. -/
theorem reachable_selected_in_bounds (st : EditState) (h : Reachable st) :
    SelInBounds st := by
  induction h with
  | init => intro i hi; simp at hi
  | step op st hst hvalid ih =>
    cases op with
    | load ps => intro i hi; simp [estep, loadPages] at hi
    | toggle k =>
      intro i hi
      simp only [estep, togglePage] at hi
      by_cases hk : k ∈ st.selected
      · rw [if_pos hk] at hi
        exact ih i (Finset.mem_of_mem_erase hi)
      · rw [if_neg hk] at hi
        rcases Finset.mem_insert.mp hi with rfl | hmem
        · exact hvalid
        · exact ih i hmem
    | selAll =>
      intro i hi
      simp only [estep, selectAll] at hi ⊢
      exact Finset.mem_range.mp hi
    | deselAll => intro i hi; simp [estep, deselectAll] at hi
    | dragEnd o n =>
      intro i hi
      simp only [estep, editDragEnd] at hi ⊢
      obtain ⟨j, hj, rfl⟩ := Finset.mem_image.mp hi
      rw [length_arrayMove st.pages o n hvalid.1 hvalid.2]
      exact dragRemap_lt o n j st.pages.length hvalid.1 hvalid.2 (ih j hj)
    | moveUp k =>
      intro i hi
      simp only [estep, movePageUp] at hi ⊢
      by_cases h0 : k = 0
      · rw [if_pos h0] at hi ⊢
        exact ih i hi
      · rw [if_neg h0] at hi ⊢
        obtain ⟨j, hj, rfl⟩ := Finset.mem_image.mp hi
        show upRemap k j < (listSwap st.pages (k - 1) k).length
        rw [length_listSwap]
        exact upRemap_lt k j st.pages.length hvalid (ih j hj)
    | moveDown k =>
      intro i hi
      simp only [estep, movePageDown] at hi ⊢
      by_cases hb : st.pages.length - 1 ≤ k
      · rw [if_pos hb] at hi ⊢
        exact ih i hi
      · rw [if_neg hb] at hi ⊢
        obtain ⟨j, hj, rfl⟩ := Finset.mem_image.mp hi
        show downRemap k j < (listSwap st.pages k (k + 1)).length
        rw [length_listSwap]
        exact downRemap_lt k j st.pages.length (by omega) (ih j hj)
    | deleteSel =>
      intro i hi
      by_cases h1 : st.selected.card = 0
      · simp only [estep, deleteSelectedPages, if_pos h1] at hi ⊢
        exact ih i hi
      · by_cases h2 : st.pages.length ≤ st.selected.card
        · simp only [estep, deleteSelectedPages, if_neg h1, if_pos h2] at hi ⊢
          exact ih i hi
        · simp only [estep, deleteSelectedPages, if_neg h1, if_neg h2] at hi
          simp at hi

/-- Witness for C2: a concrete reachable state (load four pages, toggle page 0,
drag 0 to 3, move page 2 down) has its selection in bounds. -/
theorem reachable_selected_in_bounds_witness :
    SelInBounds (estep (.moveDown 2) (estep (.dragEnd 0 3)
      (estep (.toggle 0) (estep (.load samplePages) ⟨[], ∅⟩)))) :=
  reachable_selected_in_bounds _
    (Reachable.step _ _
      (Reachable.step _ _
        (Reachable.step _ _
          (Reachable.step _ _ Reachable.init trivial)
          (show (0:Nat) < 4 by decide))
        (show (0:Nat) < 4 ∧ (3:Nat) < 4 by decide))
      (show (2:Nat) < 4 by decide))

/-! ## Claim C3 -/

/-- Counterexample to C3: invoking MergePDF's `handleDragEnd` with a dragged
identity `"x"` absent from the list does not leave the list untouched —
`findIndex` yields `-1`, which `arrayMove`'s splice treats as the last
position, so the last file is moved to the hovered file's position (and no
`NotFound` is signalled anywhere). -/
theorem mergeDragEnd_unknown_id_mutates :
    mergeDragEnd "x" "a"
        [⟨"a", "a.pdf", 1, "10 B"⟩, ⟨"b", "b.pdf", 2, "20 B"⟩, ⟨"c", "c.pdf", 3, "30 B"⟩]
      ≠ [⟨"a", "a.pdf", 1, "10 B"⟩, ⟨"b", "b.pdf", 2, "20 B"⟩, ⟨"c", "c.pdf", 3, "30 B"⟩] := by
  decide

/-- C3 amended: `removeFile` with an identity absent from the list does leave
the list structurally identical, but silently — no `NotFound` (or any error)
is signalled; and `handleDragEnd` with an unknown dragged identity feeds the
`findIndex` result `-1` straight into `arrayMove` instead of rejecting. -/
theorem removeFile_unknown_id_silent_noop (x : String) (files : List PDFFile)
    (h : ∀ f ∈ files, f.id ≠ x) :
    removeFile x files = files ∧
    ∀ overId, x ≠ overId →
      mergeDragEnd x overId files
        = jsArrayMove files (-1) (jsFindIndex (fun f => f.id == overId) files) := by
  constructor
  · apply List.filter_eq_self.mpr
    intro f hf
    simpa using h f hf
  · intro overId hne
    have hfind : files.findIdx? (fun f => f.id == x) = none := by
      apply List.findIdx?_eq_none_iff.mpr
      intro f hf
      simpa using h f hf
    simp [mergeDragEnd, if_pos hne, jsFindIndex, hfind]

/-- Witness for C3's amended theorem at a concrete input. -/
theorem removeFile_unknown_id_silent_noop_witness :
    removeFile "x" [⟨"a", "a.pdf", 1, "10 B"⟩] = [⟨"a", "a.pdf", 1, "10 B"⟩] :=
  (removeFile_unknown_id_silent_noop "x" [⟨"a", "a.pdf", 1, "10 B"⟩] (by decide)).1

/-! ## Claim C4 -/

/-- Counterexample to C4: the images page's `moveImage` has no bounds check,
and a negative target index is not a no-op — `splice(-1, 0, removed)` counts
back from the end, so moving the first image to index `-1` reorders the list
to [b, a, c]. -/
theorem moveImage_negative_target_reorders :
    moveImage [⟨"a", "a.png"⟩, ⟨"b", "b.png"⟩, ⟨"c", "c.png"⟩] 0 (-1)
      ≠ [⟨"a", "a.png"⟩, ⟨"b", "b.png"⟩, ⟨"c", "c.png"⟩] := by
  decide

/-- C4 amended: MergePDF's `moveFile` checks the target index and is a no-op
for every out-of-range target; the images page's `moveImage` performs no such
check — moving the last image one past the end happens to be a no-op (the
insertion splice clamps to an append), but a negative target reorders the
list.  (In both pages the boundary buttons are disabled, so out-of-range calls
do not occur through the interface.) -/
theorem moveFile_out_of_range_noop (files : List PDFFile) (images : List ImageFile)
    (f t : Int) (hout : t < 0 ∨ (files.length : Int) ≤ t) (hne : images ≠ []) :
    moveFile files f t = files ∧
    moveImage images ((images.length : Int) - 1) (images.length : Int) = images := by
  constructor
  · rw [moveFile, if_pos hout]
  · have hlen : 1 ≤ images.length := List.length_pos.mpr hne
    have hrem : ((if ((images.length : Int) - 1) < 0 then
        (images.length : Int) + ((images.length : Int) - 1)
        else (images.length : Int) - 1)).toNat = images.length - 1 := by
      rw [if_neg (by omega)]
      omega
    have hget : images[images.length - 1]? = some (images.getLast hne) := by
      rw [List.getLast_eq_getElem]
      exact List.getElem?_eq_getElem (by omega)
    have herase : images.eraseIdx (images.length - 1) = images.dropLast := by
      rw [List.eraseIdx_eq_take_drop_succ, List.dropLast_eq_take]
      have : images.length - 1 + 1 = images.length := by omega
      rw [this, List.drop_length, List.append_nil]
    show jsSpliceMove images ((images.length : Int) - 1) (images.length : Int) = images
    rw [jsSpliceMove]
    simp only [hrem, hget, herase]
    have hdl : images.dropLast.length = images.length - 1 := List.length_dropLast images
    have hins : (min ((if ((images.length : Int)) < 0 then
        ((images.dropLast.length : Int)) + (images.length : Int)
        else (images.length : Int))).toNat images.dropLast.length) = images.dropLast.length := by
      rw [if_neg (by omega)]
      omega
    rw [hins, List.insertIdx_length_self, List.dropLast_append_getLast]

/-- Witness for C4's amended theorem: a request to move past the right end of
a one-file list is a no-op in `moveFile`, and the clamped last-to-past-the-end
move is a no-op in `moveImage`. -/
theorem moveFile_out_of_range_noop_witness :
    moveFile [⟨"a", "a.pdf", 1, "10 B"⟩] 0 5 = [⟨"a", "a.pdf", 1, "10 B"⟩] ∧
    moveImage [⟨"a", "a.png"⟩] (([⟨"a", "a.png"⟩] : List ImageFile).length - 1)
        (([⟨"a", "a.png"⟩] : List ImageFile).length) = [⟨"a", "a.png"⟩] :=
  moveFile_out_of_range_noop [⟨"a", "a.pdf", 1, "10 B"⟩] [⟨"a", "a.png"⟩] 0 5
    (by decide) (by decide)

/-! ## Claim C5 -/

/-- Counterexample to C5 at the claim's own scenario [A,B,C] with A and C
selected: the only selection-aware removal in the code, EditPDF's
`deleteSelectedPages`, removes every selected page and empties the selection,
yielding ([B], ∅) rather than the claimed ([B,C], with C still selected). -/
theorem deleteSelectedPages_removes_whole_selection :
    deleteSelectedPages ⟨[⟨"A", 0, 0⟩, ⟨"B", 1, 0⟩, ⟨"C", 2, 0⟩], {0, 2}⟩
        = ⟨[⟨"B", 1, 0⟩], ∅⟩ ∧
    deleteSelectedPages ⟨[⟨"A", 0, 0⟩, ⟨"B", 1, 0⟩, ⟨"C", 2, 0⟩], {0, 2}⟩
        ≠ ⟨[⟨"B", 1, 0⟩, ⟨"C", 2, 0⟩], {1}⟩ := by
  constructor
  · decide
  · decide

/-- C5 amended: MergePDF's `removeFile(id)` deletes exactly the item with that
identity, shifting the subsequent items down by one (MergePDF keeps no
selection set); EditPDF's only removal operation, `deleteSelectedPages`, is
not parameterised by identity — whenever it removes anything it resets the
selection to the empty set, so other selected identities do not stay
selected. -/
theorem removeFile_deletes_exactly_one (l1 l2 : List PDFFile) (f : PDFFile)
    (hnd : ((l1 ++ f :: l2).map PDFFile.id).Nodup) :
    removeFile f.id (l1 ++ f :: l2) = l1 ++ l2 ∧
    ∀ st : EditState, st.selected.Nonempty → st.selected.card < st.pages.length →
      (deleteSelectedPages st).selected = ∅ := by
  constructor
  · rw [List.map_append, List.map_cons] at hnd
    rw [List.nodup_append] at hnd
    obtain ⟨hn1, hn2, hdisj⟩ := hnd
    have hf1 : ∀ g ∈ l1, g.id ≠ f.id := by
      intro g hg heq
      exact hdisj (heq ▸ List.mem_map_of_mem PDFFile.id hg) (List.mem_cons_self _ _)
    have hf2 : ∀ g ∈ l2, g.id ≠ f.id := by
      intro g hg heq
      rw [List.nodup_cons] at hn2
      exact hn2.1 (heq ▸ List.mem_map_of_mem PDFFile.id hg)
    rw [removeFile, List.filter_append, List.filter_cons]
    rw [if_neg (by simp)]
    rw [List.filter_eq_self.mpr fun g hg => by simpa using hf1 g hg,
      List.filter_eq_self.mpr fun g hg => by simpa using hf2 g hg]
  · intro st hne hcard
    have h1 : st.selected.card ≠ 0 := by
      simpa [Finset.card_eq_zero] using hne.ne_empty
    rw [deleteSelectedPages, if_neg h1, if_neg (by omega)]

/-- Witness for C5's amended theorem: removing A from [A, B] by identity
leaves exactly [B]. -/
theorem removeFile_deletes_exactly_one_witness :
    removeFile "a" ([] ++ ⟨"a", "a.pdf", 1, "10 B"⟩ :: [⟨"b", "b.pdf", 2, "20 B"⟩])
      = [] ++ [⟨"b", "b.pdf", 2, "20 B"⟩] :=
  (removeFile_deletes_exactly_one [] [⟨"b", "b.pdf", 2, "20 B"⟩]
    ⟨"a", "a.pdf", 1, "10 B"⟩ (by decide)).1

/-! ## Claim C6 -/

/-- C6: for an in-range move-by-one, `movePageUp` / `movePageDown` produce
exactly the adjacent transposition, and the handwritten selection remapping
agrees with following each selected item's identity through the swap: every
index stays in range and looking a remapped index up in the swapped list
returns the page that sat at the original index. -/
theorem moveByOne_follows_identity (st : EditState) (k j : Nat)
    (hk : k < st.pages.length) (hj : j < st.pages.length) :
    (0 < k →
      (movePageUp k st).pages = listSwap st.pages (k - 1) k ∧
      (movePageUp k st).selected = st.selected.image (upRemap k) ∧
      upRemap k j < st.pages.length ∧
      (movePageUp k st).pages[upRemap k j]? = st.pages[j]?) ∧
    (k + 1 < st.pages.length →
      (movePageDown k st).pages = listSwap st.pages k (k + 1) ∧
      (movePageDown k st).selected = st.selected.image (downRemap k) ∧
      downRemap k j < st.pages.length ∧
      (movePageDown k st).pages[downRemap k j]? = st.pages[j]?) := by
  constructor
  · intro hpos
    have hknz : k ≠ 0 := by omega
    have hpages : (movePageUp k st).pages = listSwap st.pages (k - 1) k := by
      rw [movePageUp, if_neg hknz]
    have hsel : (movePageUp k st).selected = st.selected.image (upRemap k) := by
      rw [movePageUp, if_neg hknz]
    refine ⟨hpages, hsel, upRemap_lt k j st.pages.length hk hj, ?_⟩
    rw [hpages, getElem?_listSwap st.pages (k - 1) k (upRemap k j) (by omega) hk]
    by_cases hjk : j = k
    · subst hjk
      rw [upRemap, if_pos rfl, if_neg (by omega), if_pos rfl]
    · by_cases hjk1 : j = k - 1
      · subst hjk1
        rw [upRemap, if_neg hjk, if_pos rfl, if_pos (by omega)]
      · rw [upRemap, if_neg hjk, if_neg hjk1, if_neg (by omega), if_neg (by omega)]
  · intro hlt
    have hguard : ¬(st.pages.length - 1 ≤ k) := by omega
    have hpages : (movePageDown k st).pages = listSwap st.pages k (k + 1) := by
      rw [movePageDown, if_neg hguard]
    have hsel : (movePageDown k st).selected = st.selected.image (downRemap k) := by
      rw [movePageDown, if_neg hguard]
    refine ⟨hpages, hsel, downRemap_lt k j st.pages.length (by omega) hj, ?_⟩
    rw [hpages, getElem?_listSwap st.pages k (k + 1) (downRemap k j) hk hlt]
    by_cases hjk : j = k
    · subst hjk
      rw [downRemap, if_pos rfl, if_pos rfl]
    · by_cases hjk1 : j = k + 1
      · subst hjk1
        rw [downRemap, if_neg hjk, if_pos rfl, if_neg (by omega), if_pos (by omega)]
      · rw [downRemap, if_neg hjk, if_neg hjk1, if_neg (by omega), if_neg (by omega)]

/-- Witness for C6: in the four-page sample state, moving page 1 left tracks
every index, checked here at index 0. -/
theorem moveByOne_follows_identity_witness :
    (movePageUp 1 sampleState).pages[upRemap 1 0]? = sampleState.pages[0]? :=
  ((moveByOne_follows_identity sampleState 1 0 (by decide) (by decide)).1 (by decide)).2.2.2

/-! ## Claim C7 -/

/-- Counterexample to C7: with a single page selected, EditPDF's
`deleteSelectedPages` refuses the removal (the `selectedPages.size >=
pages.length` guard fires, an alert is shown, state is unchanged), so a
sequence of removals can never reach the empty state in EditPDF — the
component itself does forbid deleting all pages. -/
theorem deleteSelectedPages_refuses_delete_all :
    deleteSelectedPages ⟨[⟨"A", 0, 0⟩], {0}⟩ = ⟨[⟨"A", 0, 0⟩], {0}⟩ ∧
    (deleteSelectedPages ⟨[⟨"A", 0, 0⟩], {0}⟩).pages ≠ [] := by
  constructor
  · decide
  · decide

/-- C7 amended: MergePDF's `removeFile` never rejects a removal and permits
emptying the list (removing by the id carried by every remaining file yields
`[]`), but EditPDF's `deleteSelectedPages` leaves the state untouched whenever
the selection covers all pages, so EditPDF itself forbids reaching the empty
state by deletion. -/
theorem removal_down_to_empty_policy (x : String) (files : List PDFFile)
    (h : ∀ g ∈ files, g.id = x) :
    removeFile x files = [] ∧
    ∀ st : EditState, st.pages.length ≤ st.selected.card →
      deleteSelectedPages st = st := by
  constructor
  · apply List.filter_eq_nil_iff.mpr
    intro f hf
    simp [h f hf]
  · intro st hle
    by_cases h1 : st.selected.card = 0
    · rw [deleteSelectedPages, if_pos h1]
    · rw [deleteSelectedPages, if_neg h1, if_pos hle]

/-- Witness for C7's amended theorem: removing the last remaining file empties
the list without error. -/
theorem removal_down_to_empty_policy_witness :
    removeFile "a" [⟨"a", "a.pdf", 1, "10 B"⟩] = [] :=
  (removal_down_to_empty_policy "a" [⟨"a", "a.pdf", 1, "10 B"⟩] (by decide)).1

/-! ## Claim C8 -/

/-- C8: `selectAll` is idempotent (the second call changes nothing: the
selection is the set of all current positions, and `selectAll` does not touch
`pages`), and `deselectAll` yields the empty selection regardless of the prior
state. -/
theorem selectAll_idempotent_deselectAll_empty (st : EditState) :
    selectAll (selectAll st) = selectAll st ∧
    (selectAll st).selected = Finset.range st.pages.length ∧
    (deselectAll st).selected = ∅ :=
  ⟨rfl, rfl, rfl⟩

/-! ## Claim C9 -/

theorem append_B_ne_append_KB (s t : String) : s ++ " B" ≠ t ++ " KB" := by
  intro h
  have hd : (s ++ " B").data.reverse[1]? = (t ++ " KB").data.reverse[1]? := by rw [h]
  rw [String.data_append, String.data_append,
    show (" B").data = [' ', 'B'] from rfl,
    show (" KB").data = [' ', 'K', 'B'] from rfl] at hd
  simp [List.reverse_append] at hd

theorem append_B_ne_append_MB (s t : String) : s ++ " B" ≠ t ++ " MB" := by
  intro h
  have hd : (s ++ " B").data.reverse[1]? = (t ++ " MB").data.reverse[1]? := by rw [h]
  rw [String.data_append, String.data_append,
    show (" B").data = [' ', 'B'] from rfl,
    show (" MB").data = [' ', 'M', 'B'] from rfl] at hd
  simp [List.reverse_append] at hd

theorem append_KB_ne_append_MB (s t : String) : s ++ " KB" ≠ t ++ " MB" := by
  intro h
  have hd : (s ++ " KB").data.reverse[1]? = (t ++ " MB").data.reverse[1]? := by rw [h]
  rw [String.data_append, String.data_append,
    show (" KB").data = [' ', 'K', 'B'] from rfl,
    show (" MB").data = [' ', 'M', 'B'] from rfl] at hd
  simp [List.reverse_append] at hd

/-- C9: `formatFileSize` partitions byte counts exactly at powers of 1024 —
the result is the byte count suffixed " B" precisely when `b < 1024`, the
count over 1024 rendered to one decimal place suffixed " KB" precisely when
`1024 ≤ b < 1048576`, and the count over 1048576 to one decimal place suffixed
" MB" precisely when `1048576 ≤ b`. -/
theorem formatFileSize_partition (b : Nat) :
    (formatFileSize b = toString b ++ " B" ↔ b < 1024) ∧
    (formatFileSize b = toFixed1 b 1024 ++ " KB" ↔ 1024 ≤ b ∧ b < 1048576) ∧
    (formatFileSize b = toFixed1 b 1048576 ++ " MB" ↔ 1048576 ≤ b) := by
  by_cases h1 : b < 1024
  · simp only [formatFileSize, if_pos h1]
    refine ⟨⟨fun _ => h1, fun _ => trivial⟩, ?_, ?_⟩
    · constructor
      · intro h
        exact absurd h (append_B_ne_append_KB _ _)
      · intro h
        omega
    · constructor
      · intro h
        exact absurd h (append_B_ne_append_MB _ _)
      · intro h
        omega
  · by_cases h2 : b < 1024 * 1024
    · simp only [formatFileSize, if_neg h1, if_pos h2]
      refine ⟨?_, ⟨fun _ => ⟨by omega, by omega⟩, fun _ => trivial⟩, ?_⟩
      · constructor
        · intro h
          exact absurd h.symm (append_B_ne_append_KB _ _)
        · intro h
          omega
      · constructor
        · intro h
          exact absurd h (append_KB_ne_append_MB _ _)
        · intro h
          omega
    · simp only [formatFileSize, if_neg h1, if_neg h2]
      refine ⟨?_, ?_, ⟨fun _ => by omega, fun _ => trivial⟩⟩
      · constructor
        · intro h
          exact absurd h.symm (append_B_ne_append_MB _ _)
        · intro h
          omega
      · constructor
        · intro h
          exact absurd h.symm (append_KB_ne_append_MB _ _)
        · intro h
          omega

/-! ## Claim C10 -/

/-- C10: the page order `handleSplit` copies is independent of the order in
which pages were selected — any two duplicate-free selection histories
denoting the same set produce the same `pageIndices` sequence, and that
sequence is the selected pages sorted ascending by original page number. -/
theorem handleSplit_order_independent (l1 l2 : List Nat)
    (h1 : l1.Nodup) (h2 : l2.Nodup) (hm : ∀ p, p ∈ l1 ↔ p ∈ l2) :
    splitPageIndices l1 = splitPageIndices l2 ∧
    List.Sorted (· ≤ ·) (sortedPages l1) ∧
    (∀ p, p ∈ sortedPages l1 ↔ p ∈ l1) := by
  have hperm : l1.Perm l2 := (List.perm_ext_iff_of_nodup h1 h2).mpr hm
  have hp1 : (sortedPages l1).Perm l1 := List.mergeSort_perm l1 _
  have hp2 : (sortedPages l2).Perm l2 := List.mergeSort_perm l2 _
  have hs1 : List.Sorted (· ≤ ·) (sortedPages l1) := List.sorted_mergeSort' l1
  have hs2 : List.Sorted (· ≤ ·) (sortedPages l2) := List.sorted_mergeSort' l2
  have heq : sortedPages l1 = sortedPages l2 :=
    List.eq_of_perm_of_sorted (hp1.trans (hperm.trans hp2.symm)) hs1 hs2
  exact ⟨by rw [splitPageIndices, splitPageIndices, heq], hs1, fun p => hp1.mem_iff⟩

/-- Witness for C10: the selection histories 3,1,2 and 2,3,1 denote the same
page set and produce the same 0-based index sequence. -/
theorem handleSplit_order_independent_witness :
    splitPageIndices [3, 1, 2] = splitPageIndices [2, 3, 1] :=
  (handleSplit_order_independent [3, 1, 2] [2, 3, 1] (by decide) (by decide)
    (by intro p; simp [List.mem_cons]; omega)).1

end PDFShield
